import Mathlib

/-!
Shallow embedding of the wordlist-generation engine of
`password_tool.py` (Password Strength Analyzer + Custom Wordlist
Generator).  Python strings are modelled as Lean `String` (a wrapper
around `List Char`), Python `set` as `Finset String`, Python `int` as
`Int` where sign matters.  Python's string comparison (code-point
lexicographic) is modelled by the executable `lexLe` below, because the
semantics of `sorted` in the pipeline depends on it.

The analysis path (`analyze_password`, zxcvbn) and file I/O are outside
the generation engine and are not embedded.
-/

/-- Python's `LEET_MAP` dictionary (line 14 of the source): each key maps
to its list of substitution characters.  `none` for characters without an
entry. -/
def LEET_MAP (c : Char) : Option (List Char) :=
  if c = 'a' then some ['a', '@', '4']
  else if c = 'e' then some ['e', '3']
  else if c = 'i' then some ['i', '1', '!']
  else if c = 'o' then some ['o', '0']
  else if c = 's' then some ['s', '5', '$']
  else if c = 't' then some ['t', '7']
  else none

/-- Python's `COMMON_SUFFIXES` list (line 15 of the source), verbatim:
note that `"!"` occurs twice. -/
def COMMON_SUFFIXES : List String :=
  ["!", "@", "#", "1", "12", "123", "1234", "2020", "2021", "2022",
   "2023", "2024", "2025", ".", "*", "!", "00"]

/-- `LEET_MAP.get(ch.lower(), [ch])` from line 38 of the source: the
substitution choices for one character, case-insensitive lookup with the
character itself as the default. -/
def leetChoices (c : Char) : List Char :=
  (LEET_MAP c.toLower).getD [c]

/-- `itertools.product(*choices)` specialised to lists of characters:
all ways of picking one character from each positional choice list, in
the original positional order. -/
def charProd : List (List Char) → List (List Char)
  | [] => [[]]
  | cs :: rest => cs.flatMap (fun c => (charProd rest).map (fun l => c :: l))

/-- `leet_variants(word, enable)` (lines 36-39 of the source). -/
def leet_variants (word : String) (enable : Bool) : Finset String :=
  if enable then
    ((charProd (word.data.map leetChoices)).map (fun l => String.mk l)).toFinset
  else {word}

/-- `append_years(words, years)` (lines 41-46 of the source): every word
plus every `word ++ year`. -/
def append_years (words : Finset String) (years : List String) : Finset String :=
  words.biUnion (fun w => insert w ((years.map (fun y => w ++ y)).toFinset))

/-- `add_suffixes(words, suffixes)` (lines 48-53 of the source): every
word plus every `word ++ suffix`. -/
def add_suffixes (words : Finset String) (suffixes : List String) : Finset String :=
  words.biUnion (fun w => insert w ((suffixes.map (fun s => w ++ s)).toFinset))

/-- `itertools.permutations(l, r)`: all length-`r` ordered selections of
distinct elements (erase-first-occurrence models position-distinctness
for duplicate-free input, which is how the pipeline calls it). -/
def permutationsLen : Nat → List String → List (List String)
  | 0, _ => [[]]
  | r + 1, l => l.flatMap (fun x => (permutationsLen r (l.erase x)).map (fun p => x :: p))

/-- Python's `sep.join(parts)`. -/
def pyJoin (sep : String) : List String → String
  | [] => ""
  | x :: xs => xs.foldl (fun acc y => acc ++ sep ++ y) x

/-- `combine_tokens(tokens, max_tokens_per_combo, separators)`
(lines 55-61 of the source): filter out empty tokens, then for every
`r` in `range(1, min(len(tokens), max_tokens_per_combo) + 1)`, every
permutation of length `r` and every separator, collect the joined
string. -/
def combine_tokens (tokens : List String) (max_tokens_per_combo : Int)
    (separators : List String) : Finset String :=
  let toks := tokens.filter (fun t => t ≠ "")
  ((List.range' 1 (min (toks.length : Int) max_tokens_per_combo).toNat).flatMap
      (fun r => (permutationsLen r toks).flatMap
        (fun perm => separators.map (fun sep => pyJoin sep perm)))).toFinset

/-- The loop body of `re_split_keep_digits` after the first character:
`cur` is the digit-class of the current run, `buf` the accumulated run. -/
def splitRun : Bool → List Char → List Char → List (List Char)
  | _, buf, [] => [buf]
  | cur, buf, c :: rest =>
    if c.isDigit = cur then splitRun cur (buf ++ [c]) rest
    else buf :: splitRun c.isDigit [c] rest

/-- `re_split_keep_digits(text)` (lines 63-71 of the source): split a
string into maximal runs of digit / non-digit characters. -/
def re_split_keep_digits (text : String) : List String :=
  match text.data with
  | [] => []
  | c :: rest => (splitRun c.isDigit [c] rest).map (fun l => String.mk l)

/-- Python's `str.strip()` (whitespace from both ends), as used on
line 83 of the source. -/
def pyStrip (s : String) : String :=
  String.mk (((s.data.dropWhile (fun c => c.isWhitespace)).reverse.dropWhile
      (fun c => c.isWhitespace)).reverse)

/-- Python's `str.lower()`. -/
def pyLower (s : String) : String := String.mk (s.data.map Char.toLower)

/-- Python's `str.upper()`. -/
def pyUpper (s : String) : String := String.mk (s.data.map Char.toUpper)

/-- Python's `str.capitalize()`: first character uppercased, the rest
lowercased. -/
def pyCapitalize (s : String) : String :=
  match s.data with
  | [] => ""
  | c :: rest => String.mk (c.toUpper :: rest.map Char.toLower)

/-- Helper for `str.title()`: the Bool records whether the previous
character was a letter. -/
def pyTitleAux : Bool → List Char → List Char
  | _, [] => []
  | prevAlpha, c :: rest =>
    (if prevAlpha then c.toLower else c.toUpper) :: pyTitleAux c.isAlpha rest

/-- Python's `str.title()`: each letter that follows a non-letter is
uppercased, other letters are lowercased. -/
def pyTitle (s : String) : String := String.mk (pyTitleAux false s.data)

/-- Step 1 of `generate_wordlist` (lines 80-84 of the source): the base
token set.  Faithful to the code: the `if not item` emptiness test is on
the raw item, *before* stripping, and the stripped item is added
unconditionally afterwards. -/
def base_tokens (raw_inputs : List String) : Finset String :=
  raw_inputs.foldl
    (fun base item =>
      if item = "" then base
      else
        let t := pyStrip item
        insert t base ∪ ((re_split_keep_digits t).filter (fun p => p ≠ "")).toFinset)
    ∅

/-- Step 2 of `generate_wordlist` (lines 85-88 of the source): case
variants (inline five-element set when enabled) fed through
`leet_variants`. -/
def expanded_tokens (base : Finset String) (include_case include_leet : Bool) :
    Finset String :=
  base.biUnion (fun tok =>
    (if include_case then
        ({tok, pyLower tok, pyUpper tok, pyCapitalize tok, pyTitle tok} : Finset String)
      else {tok}).biUnion
      (fun cv => leet_variants cv include_leet))

/-- Code-point lexicographic order on character lists: Python's string
`<=`/sort order. -/
def lexLe : List Char → List Char → Bool
  | [], _ => true
  | _ :: _, [] => false
  | a :: as, b :: bs => if a < b then true else if a = b then lexLe as bs else false

/-- Python string `<=` (code-point lexicographic), the key used by
`sorted(expanded)` on line 89 of the source. -/
def strLe (x y : String) : Prop := lexLe x.data y.data = true

/-- The sort key of line 92 of the source, `key=lambda x: (len(x), x)`
read as an order relation: length first, then code-point lexicographic. -/
def keyLe (x y : String) : Prop :=
  x.length < y.length ∨ (x.length = y.length ∧ lexLe x.data y.data = true)

lemma lexLe_refl : ∀ l : List Char, lexLe l l = true := by
  intro l
  induction l with
  | nil => rfl
  | cons a as ih => simp [lexLe, lt_irrefl, ih]

lemma lexLe_total : ∀ x y : List Char, lexLe x y = true ∨ lexLe y x = true := by
  intro x
  induction x with
  | nil => intro y; left; rfl
  | cons a as ih =>
    intro y
    cases y with
    | nil => right; rfl
    | cons b bs =>
      rcases lt_trichotomy a b with hab | hab | hab
      · left; simp [lexLe, hab]
      · subst hab
        rcases ih bs with h | h
        · left; simp [lexLe, lt_irrefl, h]
        · right; simp [lexLe, lt_irrefl, h]
      · right; simp [lexLe, hab]

lemma lexLe_antisymm : ∀ {x y : List Char},
    lexLe x y = true → lexLe y x = true → x = y := by
  intro x
  induction x with
  | nil =>
    intro y _ hyx
    cases y with
    | nil => rfl
    | cons b bs => simp [lexLe] at hyx
  | cons a as ih =>
    intro y hxy hyx
    cases y with
    | nil => simp [lexLe] at hxy
    | cons b bs =>
      rcases lt_trichotomy a b with hab | hab | hab
      · exfalso
        have : ¬ b < a := lt_asymm hab
        have : ¬ b = a := fun h => absurd (h ▸ hab) (lt_irrefl a)
        simp [lexLe, *] at hyx
      · subst hab
        simp only [lexLe, lt_irrefl, if_false, if_pos rfl, if_neg (lt_irrefl a)] at hxy hyx
        exact congrArg (a :: ·) (ih hxy hyx)
      · exfalso
        have : ¬ a < b := lt_asymm hab
        have : ¬ a = b := fun h => absurd (h ▸ hab) (lt_irrefl b)
        simp [lexLe, *] at hxy

lemma lexLe_trans : ∀ {x y z : List Char},
    lexLe x y = true → lexLe y z = true → lexLe x z = true := by
  intro x
  induction x with
  | nil => intro y z _ _; rfl
  | cons a as ih =>
    intro y z hxy hyz
    cases y with
    | nil => simp [lexLe] at hxy
    | cons b bs =>
      cases z with
      | nil => simp [lexLe] at hyz
      | cons c cs =>
        simp only [lexLe] at hxy hyz ⊢
        by_cases hab : a < b
        · by_cases hbc : b < c
          · simp [lt_trans hab hbc]
          · by_cases hbc2 : b = c
            · subst hbc2; simp [hab]
            · simp [hbc, hbc2] at hyz
        · by_cases hab2 : a = b
          · subst hab2
            simp only [if_neg hab, if_pos rfl] at hxy
            by_cases hbc : a < c
            · simp [hbc]
            · by_cases hbc2 : a = c
              · subst hbc2
                simp only [if_neg hbc, if_pos rfl] at hyz ⊢
                exact ih hxy hyz
              · simp [hbc, hbc2] at hyz
          · simp [hab, hab2] at hxy

lemma strLe_refl (x : String) : strLe x x := lexLe_refl x.data

lemma strLe_antisymm {x y : String} (h1 : strLe x y) (h2 : strLe y x) : x = y := by
  cases x with
  | mk xd =>
    cases y with
    | mk yd => exact congrArg String.mk (lexLe_antisymm h1 h2)

instance strLe_decidable : DecidableRel strLe := fun x y =>
  inferInstanceAs (Decidable (lexLe x.data y.data = true))

instance strLe_isTrans : IsTrans String strLe :=
  ⟨fun _ _ _ h1 h2 => lexLe_trans h1 h2⟩

instance strLe_isAntisymm : IsAntisymm String strLe :=
  ⟨fun _ _ h1 h2 => strLe_antisymm h1 h2⟩

instance strLe_isTotal : IsTotal String strLe :=
  ⟨fun x y => lexLe_total x.data y.data⟩

instance keyLe_decidable : DecidableRel keyLe := fun x y =>
  inferInstanceAs
    (Decidable (x.length < y.length ∨ (x.length = y.length ∧ lexLe x.data y.data = true)))

instance keyLe_isTrans : IsTrans String keyLe := by
  constructor
  intro a b c hab hbc
  rcases hab with h1 | ⟨h1, h1l⟩ <;> rcases hbc with h2 | ⟨h2, h2l⟩
  · exact Or.inl (lt_trans h1 h2)
  · exact Or.inl (h2 ▸ h1)
  · exact Or.inl (h1 ▸ h2)
  · exact Or.inr ⟨h1.trans h2, lexLe_trans h1l h2l⟩

instance keyLe_isAntisymm : IsAntisymm String keyLe := by
  constructor
  intro a b hab hba
  rcases hab with h1 | ⟨h1, h1l⟩ <;> rcases hba with h2 | ⟨h2, h2l⟩
  · exact absurd (lt_trans h1 h2) (lt_irrefl _)
  · exact absurd h1 (h2 ▸ lt_irrefl _)
  · exact absurd h2 (h1 ▸ lt_irrefl _)
  · exact strLe_antisymm h1l h2l

instance keyLe_isTotal : IsTotal String keyLe := by
  constructor
  intro a b
  rcases lt_trichotomy a.length b.length with h | h | h
  · exact Or.inl (Or.inl h)
  · rcases lexLe_total a.data b.data with hl | hl
    · exact Or.inl (Or.inr ⟨h, hl⟩)
    · exact Or.inr (Or.inr ⟨h.symm, hl⟩)
  · exact Or.inr (Or.inl h)

/-- Steps 3-5 of `generate_wordlist` (lines 89-91 of the source): the
final candidate set before sorting and truncation.  Argument order
follows the Python signature. -/
def final_set (raw_inputs : List String) (years : List String)
    (include_leet include_case include_suffixes : Bool)
    (separators : List String) (max_tokens_per_combo : Int) : Finset String :=
  let base := base_tokens raw_inputs
  let expanded := expanded_tokens base include_case include_leet
  let combined := combine_tokens (expanded.sort strLe) max_tokens_per_combo separators
  let with_years := if years = [] then combined else append_years combined years
  if include_suffixes then add_suffixes with_years COMMON_SUFFIXES else with_years

/-- `generate_wordlist` (lines 78-94 of the source): the final candidate
set sorted by `(len(x), x)` and truncated to `max_words` entries when
`max_words > 0`. -/
def generate_wordlist (raw_inputs : List String) (years : List String)
    (include_leet include_case include_suffixes : Bool)
    (separators : List String) (max_tokens_per_combo : Int) (max_words : Int) :
    List String :=
  let words := (final_set raw_inputs years include_leet include_case include_suffixes
      separators max_tokens_per_combo).sort keyLe
  if 0 < max_words then words.take max_words.toNat else words

/-- The generation call in `main` (lines 159-160 of the source): the
caller-supplied bounds are clamped — `max(1, max_combo)` and
`max(0, max_words)` — before `generate_wordlist` is invoked. -/
def main_generate (raw_inputs : List String) (years : List String)
    (include_leet include_case include_suffixes : Bool)
    (separators : List String) (max_combo : Int) (max_words : Int) : List String :=
  generate_wordlist raw_inputs years include_leet include_case include_suffixes
    separators (max 1 max_combo) (max 0 max_words)

/-- The digit-or-not class of a character run (class of its first
character; `false` for the empty run, which never occurs). -/
def runClass : List Char → Bool
  | [] => false
  | c :: _ => c.isDigit

/-- The digit-or-not class of a fragment returned by
`re_split_keep_digits`. -/
def fragClass (f : String) : Bool := runClass f.data

lemma stringMk_injective : Function.Injective String.mk := by
  intro a b h
  exact congrArg String.data h

lemma forall₂_diag {R : String → String → Prop} :
    ∀ {l : List String}, List.Forall₂ R l l → ∀ x ∈ l, R x x := by
  intro l
  induction l with
  | nil => intro _ x hx; cases hx
  | cons a as ih =>
    intro h x hx
    cases h with
    | cons hR hrest =>
      rcases List.mem_cons.mp hx with rfl | hx2
      · exact hR
      · exact ih hrest x hx2

lemma forall₂_char_diag {R : Char → Char → Prop} :
    ∀ {l : List Char}, List.Forall₂ R l l → ∀ x ∈ l, R x x := by
  intro l
  induction l with
  | nil => intro _ x hx; cases hx
  | cons a as ih =>
    intro h x hx
    cases h with
    | cons hR hrest =>
      rcases List.mem_cons.mp hx with rfl | hx2
      · exact hR
      · exact ih hrest x hx2

lemma mem_charProd {L : List (List Char)} {l : List Char} :
    l ∈ charProd L ↔ List.Forall₂ (fun c cs => c ∈ cs) l L := by
  induction L generalizing l with
  | nil =>
    simp only [charProd, List.mem_singleton, List.forall₂_nil_right_iff]
  | cons cs rest ih =>
    simp only [charProd, List.mem_flatMap, List.mem_map, List.forall₂_cons_right_iff]
    constructor
    · rintro ⟨c, hc, q, hq, rfl⟩
      exact ⟨c, q, hc, ih.mp hq, rfl⟩
    · rintro ⟨c, q, hc, hq, rfl⟩
      exact ⟨c, hc, q, ih.mpr hq, rfl⟩

lemma length_charProd : ∀ L : List (List Char),
    (charProd L).length = (L.map List.length).prod := by
  intro L
  induction L with
  | nil => rfl
  | cons cs rest ih =>
    simp only [charProd, List.length_flatMap, List.map_map, List.map_cons, List.prod_cons]
    have hconst : List.map (List.length ∘ fun c => (charProd rest).map (c :: ·)) cs
        = List.map (fun _ => (charProd rest).length) cs := by
      apply List.map_congr_left
      intro c _
      simp [List.length_map]
    rw [hconst, ← ih]
    have : List.map (fun _ => (charProd rest).length) cs
        = List.replicate cs.length (charProd rest).length := by
      rw [← List.map_const]
      rfl
    rw [this, List.sum_replicate, smul_eq_mul]

lemma nodup_charProd : ∀ {L : List (List Char)},
    (∀ cs ∈ L, cs.Nodup) → (charProd L).Nodup := by
  intro L
  induction L with
  | nil => intro _; simp [charProd]
  | cons cs rest ih =>
    intro h
    have hcs : cs.Nodup := h cs (List.mem_cons_self cs rest)
    have hrest : (charProd rest).Nodup := ih (fun x hx => h x (List.mem_cons_of_mem cs hx))
    simp only [charProd]
    rw [List.nodup_flatMap]
    refine ⟨fun c _ => List.Nodup.map (fun a b hab => by injection hab) hrest, ?_⟩
    refine List.Pairwise.imp_of_mem ?_ hcs
    intro a b _ _ hab
    intro x hxa hxb
    rcases List.mem_map.mp hxa with ⟨p, _, rfl⟩
    rcases List.mem_map.mp hxb with ⟨q, _, hq⟩
    exact hab (by injection hq.symm)

lemma leetChoices_nodup (c : Char) : (leetChoices c).Nodup := by
  unfold leetChoices LEET_MAP
  split_ifs <;> simp

lemma leetChoices_getLength (c : Char) :
    (leetChoices c).length =
      if c.toLower = 'a' ∨ c.toLower = 'i' ∨ c.toLower = 's' then 3
      else if c.toLower = 'e' ∨ c.toLower = 'o' ∨ c.toLower = 't' then 2
      else 1 := by
  unfold leetChoices LEET_MAP
  by_cases h1 : c.toLower = 'a' <;> by_cases h2 : c.toLower = 'e' <;>
    by_cases h3 : c.toLower = 'i' <;> by_cases h4 : c.toLower = 'o' <;>
    by_cases h5 : c.toLower = 's' <;> by_cases h6 : c.toLower = 't' <;>
    simp_all

lemma permutationsLen_sound : ∀ (r : Nat) (l : List String) (p : List String),
    p ∈ permutationsLen r l → p.length = r ∧ ∀ x ∈ p, x ∈ l := by
  intro r
  induction r with
  | zero =>
    intro l p hp
    simp only [permutationsLen, List.mem_singleton] at hp
    subst hp
    exact ⟨rfl, fun x hx => absurd hx (List.not_mem_nil x)⟩
  | succ n ih =>
    intro l p hp
    simp only [permutationsLen, List.mem_flatMap, List.mem_map] at hp
    rcases hp with ⟨x, hx, q, hq, rfl⟩
    rcases ih (l.erase x) q hq with ⟨hlen, hmem⟩
    refine ⟨by simp [hlen], ?_⟩
    intro y hy
    rcases List.mem_cons.mp hy with rfl | hy2
    · exact hx
    · exact List.mem_of_mem_erase (hmem y hy2)

lemma mem_permutationsLen {l : List String} (hl : l.Nodup) :
    ∀ {r : Nat} {p : List String},
      p ∈ permutationsLen r l ↔ p.length = r ∧ p.Nodup ∧ ∀ x ∈ p, x ∈ l := by
  intro r
  induction r generalizing l with
  | zero =>
    intro p
    simp only [permutationsLen, List.mem_singleton]
    constructor
    · rintro rfl
      exact ⟨rfl, List.nodup_nil, fun x hx => absurd hx (List.not_mem_nil x)⟩
    · rintro ⟨hlen, _, _⟩
      exact List.eq_nil_of_length_eq_zero hlen
  | succ n ih =>
    intro p
    simp only [permutationsLen, List.mem_flatMap, List.mem_map]
    constructor
    · rintro ⟨x, hx, q, hq, rfl⟩
      rcases (ih (hl.erase x)).mp hq with ⟨hlen, hnd, hmem⟩
      refine ⟨by simp [hlen], ?_, ?_⟩
      · refine List.nodup_cons.mpr ⟨fun hxq => ?_, hnd⟩
        exact (List.Nodup.not_mem_erase hl) (hmem x hxq)
      · intro y hy
        rcases List.mem_cons.mp hy with rfl | hy2
        · exact hx
        · exact List.mem_of_mem_erase (hmem y hy2)
    · rintro ⟨hlen, hnd, hmem⟩
      cases p with
      | nil => simp at hlen
      | cons x q =>
        rcases List.nodup_cons.mp hnd with ⟨hxq, hndq⟩
        refine ⟨x, hmem x (List.mem_cons_self x q), q, ?_, rfl⟩
        refine (ih (hl.erase x)).mpr ⟨by simpa using hlen, hndq, ?_⟩
        intro y hy
        have hyx : y ≠ x := fun h => hxq (by rw [← h]; exact hy)
        exact (List.mem_erase_of_ne hyx).mpr (hmem y (List.mem_cons_of_mem x hy))

lemma pyJoin_length_ge (sep : String) (x : String) (xs : List String) :
    x.length ≤ (pyJoin sep (x :: xs)).length := by
  simp only [pyJoin]
  induction xs generalizing x with
  | nil => exact le_refl _
  | cons y ys ih =>
    simp only [List.foldl_cons]
    calc x.length ≤ (x ++ sep ++ y).length := by
          rw [String.length_append, String.length_append]
          omega
      _ ≤ _ := ih (x ++ sep ++ y)

lemma string_ne_empty_of_length_pos {s : String} (h : 0 < s.length) : s ≠ "" := by
  intro hs
  subst hs
  simp at h

lemma subset_append_years (words : Finset String) (years : List String) :
    words ⊆ append_years words years := by
  intro w hw
  exact Finset.mem_biUnion.mpr ⟨w, hw, Finset.mem_insert_self w _⟩

lemma append_years_card_le (words : Finset String) (years : List String) :
    (append_years words years).card ≤ words.card * (1 + years.length) := by
  calc (append_years words years).card
      ≤ ∑ w ∈ words, (insert w ((years.map (fun y => w ++ y)).toFinset)).card :=
        Finset.card_biUnion_le
    _ ≤ ∑ _w ∈ words, (1 + years.length) := by
        apply Finset.sum_le_sum
        intro w _
        have h1 := Finset.card_insert_le w ((years.map (fun y => w ++ y)).toFinset)
        have h2 := List.toFinset_card_le (years.map (fun y => w ++ y))
        rw [List.length_map] at h2
        omega
    _ = words.card * (1 + years.length) := by rw [Finset.sum_const, smul_eq_mul]

lemma add_suffixes_eq_append_years : add_suffixes = append_years := rfl

lemma leet_variants_true (w : String) :
    leet_variants w true
      = ((charProd (w.data.map leetChoices)).map (fun l => String.mk l)).toFinset := by
  simp [leet_variants]

/-- Claim C3, counterexample: for the singleton input set `{"x"}` and the
built-in suffix list (in which `"!"` occurs twice), the suffix appender's
output has 17 elements, not `1 * (1 + 17) = 18` as the claim's exact
cardinality formula requires. -/
theorem add_suffixes_card_formula_fails :
    ¬ ((add_suffixes {"x"} COMMON_SUFFIXES).card
        = ({"x"} : Finset String).card * (1 + COMMON_SUFFIXES.length)) := by
  decide

/-- Claim C3 (amended): the year/suffix appenders return a superset of
the input set whose cardinality is at most the input cardinality times
`(1 + number of supplied suffixes or years)`; equality can fail when
appended strings collide (duplicate suffixes, or a suffixed word equal to
another entry). -/
theorem appender_card_bound (words : Finset String) (years suffixes : List String) :
    words ⊆ append_years words years ∧
    (append_years words years).card ≤ words.card * (1 + years.length) ∧
    words ⊆ add_suffixes words suffixes ∧
    (add_suffixes words suffixes).card ≤ words.card * (1 + suffixes.length) := by
  refine ⟨subset_append_years words years, append_years_card_le words years, ?_, ?_⟩
  · rw [add_suffixes_eq_append_years]
    exact subset_append_years words suffixes
  · rw [add_suffixes_eq_append_years]
    exact append_years_card_le words suffixes

/-- Claim C8: both appenders are identity-preserving — the output set of
`append_years` and of `add_suffixes` contains every word of the input
set, for every year list and every suffix list (the built-in
`COMMON_SUFFIXES` included). -/
theorem appender_identity_preserving (words : Finset String)
    (years suffixes : List String) :
    words ⊆ append_years words years ∧
    words ⊆ add_suffixes words suffixes ∧
    words ⊆ add_suffixes words COMMON_SUFFIXES := by
  refine ⟨subset_append_years words years, ?_, ?_⟩ <;> rw [add_suffixes_eq_append_years]
  · exact subset_append_years words suffixes
  · exact subset_append_years words COMMON_SUFFIXES

/-- Claim C7: the generation entry point in `main` clamps
`max-tokens-per-combination` to at least 1 and `max-words` to at least 0
before use (and, being a total function, raises nothing), so its output
on any configuration equals its output on the clamped configuration. -/
theorem main_generate_clamps (raw_inputs years : List String)
    (include_leet include_case include_suffixes : Bool)
    (separators : List String) (max_combo max_words : Int) :
    main_generate raw_inputs years include_leet include_case include_suffixes
        separators max_combo max_words
      = main_generate raw_inputs years include_leet include_case include_suffixes
        separators (max 1 max_combo) (max 0 max_words) ∧
    main_generate raw_inputs years include_leet include_case include_suffixes
        separators max_combo max_words
      = generate_wordlist raw_inputs years include_leet include_case include_suffixes
        separators (max 1 max_combo) (max 0 max_words) := by
  constructor
  · unfold main_generate
    rw [← max_assoc, max_self, ← max_assoc, max_self]
  · rfl

/-- Claim C6, code evaluation at the failing input: a raw input of three
spaces passes the pre-strip emptiness test, is then stripped to `""`, and
`""` is added to the base token set — contradicting the claim that a
whitespace-only raw input contributes nothing. -/
theorem base_tokens_contains_empty : "" ∈ base_tokens ["   "] := by decide

/-- Claim C4: disabling leet substitution returns exactly the singleton
of the token; enabling it returns a set whose cardinality is the product
over the token's characters of that character's number of substitution
alternatives (3 for a/i/s, 2 for e/o/t, case-insensitively; 1
otherwise). -/
theorem leet_variants_count (w : String) :
    leet_variants w false = {w} ∧
    (leet_variants w true).card = (w.data.map (fun c => (leetChoices c).length)).prod ∧
    ∀ c : Char, (leetChoices c).length =
      if c.toLower = 'a' ∨ c.toLower = 'i' ∨ c.toLower = 's' then 3
      else if c.toLower = 'e' ∨ c.toLower = 'o' ∨ c.toLower = 't' then 2
      else 1 := by
  refine ⟨by simp [leet_variants], ?_, leetChoices_getLength⟩
  have hnd : ((charProd (w.data.map leetChoices)).map String.mk).Nodup := by
    apply List.Nodup.map stringMk_injective
    apply nodup_charProd
    intro cs hcs
    rcases List.mem_map.mp hcs with ⟨c, _, rfl⟩
    exact leetChoices_nodup c
  rw [leet_variants_true, List.toFinset_card_of_nodup hnd, List.length_map,
    length_charProd, List.map_map]
  rfl

/-- Claim C9: with leet substitution enabled, a token containing an
uppercase letter from the substitution alphabet (`A`, `E`, `I`, `O`,
`S`, `T`) is never itself in the output (lookup is by lowercased
character and the substitution lists hold no uppercase letters); in
particular `"IT"` yields exactly
`{"it","i7","1t","17","!t","!7"}`, omitting `"IT"`. -/
theorem leet_variants_drops_uppercase (w : String)
    (h : ∃ c ∈ w.data, c ∈ (['A', 'E', 'I', 'O', 'S', 'T'] : List Char)) :
    w ∉ leet_variants w true ∧
    leet_variants "IT" true = {"it", "i7", "1t", "17", "!t", "!7"} := by
  constructor
  · intro hmem
    rw [leet_variants_true] at hmem
    rw [List.mem_toFinset, List.mem_map] at hmem
    rcases hmem with ⟨l, hl, hlw⟩
    have hld : l = w.data := congrArg String.data hlw
    subst hld
    have hforall := mem_charProd.mp hl
    rw [List.forall₂_map_right_iff] at hforall
    have hdiag := forall₂_char_diag hforall
    rcases h with ⟨c, hc, hcset⟩
    have hno : ∀ c ∈ (['A', 'E', 'I', 'O', 'S', 'T'] : List Char),
        c ∉ leetChoices c := by decide
    exact hno c hcset (hdiag c hc)
  · decide

/-- Claim C9 witness at the concrete token `"IT"`. -/
theorem leet_variants_drops_uppercase_witness :
    "IT" ∉ leet_variants "IT" true ∧
    leet_variants "IT" true = {"it", "i7", "1t", "17", "!t", "!7"} :=
  leet_variants_drops_uppercase "IT" (by decide)

/-- Claim C1: for distinct non-empty tokens, `k ≥ 1` and any separator
list, `combine_tokens` returns exactly the joins `pyJoin sep perm` where
`sep` ranges over the separators and `perm` over the ordered
duplicate-free arrangements of tokens of every length from 1 to
`min(number of tokens, k)`; in particular for `["a","b"]`, `k = 2`,
separators `["", "-"]` the result is exactly
`{"a","b","a-b","b-a","ab","ba"}`. -/
theorem combine_tokens_spec (tokens : List String) (k : Int) (seps : List String)
    (hnd : tokens.Nodup) (hne : ∀ t ∈ tokens, t ≠ "") (hk : 1 ≤ k) :
    (∀ s : String, s ∈ combine_tokens tokens k seps ↔
      ∃ sep ∈ seps, ∃ perm : List String,
        perm.Nodup ∧ (∀ t ∈ perm, t ∈ tokens) ∧
        1 ≤ perm.length ∧ (perm.length : Int) ≤ min (tokens.length : Int) k ∧
        s = pyJoin sep perm) ∧
    combine_tokens ["a", "b"] 2 ["", "-"] = {"a", "b", "a-b", "b-a", "ab", "ba"} := by
  constructor
  · intro s
    have hfil : tokens.filter (fun t => t ≠ "") = tokens := by
      rw [List.filter_eq_self]
      intro a ha
      simpa using hne a ha
    have hmin : (0 : Int) ≤ min (tokens.length : Int) k := by
      rcases min_le_iff.mp (le_refl (min (tokens.length : Int) k)) with _ | _ <;> omega
    simp only [combine_tokens, hfil, List.mem_toFinset, List.mem_flatMap, List.mem_map,
      List.mem_range'_1]
    constructor
    · rintro ⟨r, ⟨hr1, hr2⟩, perm, hperm, sep, hsep, rfl⟩
      rcases (mem_permutationsLen hnd).mp hperm with ⟨hlen, hndp, hmem⟩
      refine ⟨sep, hsep, perm, hndp, hmem, ?_, ?_, rfl⟩
      · omega
      · omega
    · rintro ⟨sep, hsep, perm, hndp, hmem, h1, h2, rfl⟩
      refine ⟨perm.length, ⟨h1, ?_⟩, perm,
        (mem_permutationsLen hnd).mpr ⟨rfl, hndp, hmem⟩, sep, hsep, rfl⟩
      omega
  · decide

lemma splitRun_spec : ∀ (l : List Char) (cur : Bool) (buf : List Char),
    buf ≠ [] → (∀ c ∈ buf, c.isDigit = cur) →
    (splitRun cur buf l).flatten = buf ++ l ∧
    (∀ f ∈ splitRun cur buf l, f ≠ [] ∧ ∃ b : Bool, ∀ c ∈ f, c.isDigit = b) ∧
    List.Chain' (fun f g => runClass f ≠ runClass g) (splitRun cur buf l) ∧
    ∃ f0 rest0, splitRun cur buf l = f0 :: rest0 ∧ runClass f0 = cur := by
  intro l
  induction l with
  | nil =>
    intro cur buf hbuf hhom
    refine ⟨by simp [splitRun], ?_, ?_, ⟨buf, [], rfl, ?_⟩⟩
    · intro f hf
      rw [splitRun, List.mem_singleton] at hf
      subst hf
      exact ⟨hbuf, cur, hhom⟩
    · exact List.chain'_singleton buf
    · cases buf with
      | nil => exact absurd rfl hbuf
      | cons c cs => exact hhom c (List.mem_cons_self c cs)
  | cons c rest ih =>
    intro cur buf hbuf hhom
    by_cases hc : c.isDigit = cur
    · have hstep : splitRun cur buf (c :: rest) = splitRun cur (buf ++ [c]) rest := by
        rw [splitRun, if_pos hc]
      have hhom2 : ∀ x ∈ buf ++ [c], x.isDigit = cur := by
        intro x hx
        rcases List.mem_append.mp hx with hx1 | hx2
        · exact hhom x hx1
        · rw [List.mem_singleton] at hx2
          subst hx2
          exact hc
      rcases ih cur (buf ++ [c]) (by simp) hhom2 with ⟨hjoin, hfrag, hchain, hhead⟩
      rw [hstep]
      refine ⟨by rw [hjoin]; simp, hfrag, hchain, hhead⟩
    · have hstep : splitRun cur buf (c :: rest)
          = buf :: splitRun c.isDigit [c] rest := by
        rw [splitRun, if_neg hc]
      rcases ih c.isDigit [c] (by simp) (by simp) with ⟨hjoin, hfrag, hchain, hhead⟩
      rcases hhead with ⟨f0, rest0, heq, hcls⟩
      have hbufcls : runClass buf = cur := by
        cases buf with
        | nil => exact absurd rfl hbuf
        | cons b bs => exact hhom b (List.mem_cons_self b bs)
      rw [hstep]
      refine ⟨?_, ?_, ?_, ⟨buf, _, rfl, hbufcls⟩⟩
      · simp only [List.flatten_cons, hjoin, List.singleton_append, List.cons_append,
          List.append_assoc]
        simp
      · intro f hf
        rcases List.mem_cons.mp hf with rfl | hf2
        · exact ⟨hbuf, cur, hhom⟩
        · exact hfrag f hf2
      · rw [heq]
        rw [List.chain'_cons]
        refine ⟨?_, heq ▸ hchain⟩
        rw [hbufcls, hcls]
        exact fun h => hc h.symm

/-- Claim C5: the digit splitter returns non-empty homogeneous
(all-digit or all-non-digit) fragments whose in-order concatenation is
exactly the input, with no two adjacent fragments of the same class, and
the empty string yields the empty sequence. -/
theorem re_split_keep_digits_spec (s : String) :
    ((re_split_keep_digits s).map String.data).flatten = s.data ∧
    (∀ f ∈ re_split_keep_digits s,
      f ≠ "" ∧ ∃ b : Bool, ∀ c ∈ f.data, c.isDigit = b) ∧
    List.Chain' (fun f g => fragClass f ≠ fragClass g) (re_split_keep_digits s) ∧
    re_split_keep_digits "" = [] := by
  cases s with
  | mk d =>
    cases d with
    | nil => exact ⟨rfl, fun f hf => absurd hf (List.not_mem_nil f), List.chain'_nil, rfl⟩
    | cons c rest =>
      rcases splitRun_spec rest c.isDigit [c] (by simp) (by simp)
        with ⟨hjoin, hfrag, hchain, _⟩
      have hre : re_split_keep_digits (String.mk (c :: rest))
          = (splitRun c.isDigit [c] rest).map (fun l => String.mk l) := rfl
      refine ⟨?_, ?_, ?_, rfl⟩
      · rw [hre, List.map_map]
        have : (String.data ∘ fun l => String.mk l) = id := rfl
        rw [this, List.map_id, hjoin]
        rfl
      · intro f hf
        rw [hre, List.mem_map] at hf
        rcases hf with ⟨l, hl, rfl⟩
        rcases hfrag l hl with ⟨hlne, b, hb⟩
        refine ⟨?_, b, hb⟩
        intro hcon
        exact hlne (congrArg String.data hcon)
      · rw [hre, List.chain'_map]
        exact hchain

/-- Claim C1 witness at tokens `["a","b"]`, `k = 2`,
separators `["", "-"]`. -/
theorem combine_tokens_spec_witness :
    (∀ s : String, s ∈ combine_tokens ["a", "b"] 2 ["", "-"] ↔
      ∃ sep ∈ (["", "-"] : List String), ∃ perm : List String,
        perm.Nodup ∧ (∀ t ∈ perm, t ∈ (["a", "b"] : List String)) ∧
        1 ≤ perm.length ∧ (perm.length : Int) ≤ min ((["a", "b"] : List String).length : Int) 2 ∧
        s = pyJoin sep perm) ∧
    combine_tokens ["a", "b"] 2 ["", "-"] = {"a", "b", "a-b", "b-a", "ab", "ba"} :=
  combine_tokens_spec ["a", "b"] 2 ["", "-"] (by decide) (by decide) (by decide)

lemma string_pos_length_of_ne {s : String} (h : s ≠ "") : 0 < s.length := by
  cases s with
  | mk d =>
    cases d with
    | nil => exact absurd rfl h
    | cons c cs => simp [String.length]

lemma combine_tokens_pos_length (tokens : List String) (k : Int) (seps : List String) :
    ∀ s ∈ combine_tokens tokens k seps, 0 < s.length := by
  intro s hs
  simp only [combine_tokens, List.mem_toFinset, List.mem_flatMap, List.mem_map,
    List.mem_range'_1] at hs
  rcases hs with ⟨r, ⟨hr1, _⟩, perm, hperm, sep, _, rfl⟩
  rcases permutationsLen_sound r _ perm hperm with ⟨hlen, hmem⟩
  cases perm with
  | nil => simp at hlen; omega
  | cons x xs =>
    have hx := hmem x (List.mem_cons_self x xs)
    have hxne : x ≠ "" := by
      have := List.of_mem_filter hx
      simpa using this
    exact lt_of_lt_of_le (string_pos_length_of_ne hxne) (pyJoin_length_ge sep x xs)

lemma append_years_pos_length (words : Finset String) (years : List String)
    (h : ∀ x ∈ words, 0 < x.length) :
    ∀ s ∈ append_years words years, 0 < s.length := by
  intro s hs
  rcases Finset.mem_biUnion.mp hs with ⟨y, hy, hsy⟩
  rcases Finset.mem_insert.mp hsy with hsy1 | hsy2
  · rw [hsy1]
    exact h y hy
  · rcases List.mem_map.mp (List.mem_toFinset.mp hsy2) with ⟨z, _, rfl⟩
    rw [String.length_append]
    have := h y hy
    omega

lemma final_set_pos_length (raw_inputs years : List String)
    (include_leet include_case include_suffixes : Bool)
    (separators : List String) (k : Int) :
    ∀ s ∈ final_set raw_inputs years include_leet include_case include_suffixes
      separators k, 0 < s.length := by
  intro s hs
  simp only [final_set] at hs
  have hcomb := combine_tokens_pos_length
    ((expanded_tokens (base_tokens raw_inputs) include_case include_leet).sort strLe)
    k separators
  have hwy : ∀ x ∈ (if years = [] then
        combine_tokens ((expanded_tokens (base_tokens raw_inputs) include_case
          include_leet).sort strLe) k separators
      else append_years (combine_tokens ((expanded_tokens (base_tokens raw_inputs)
          include_case include_leet).sort strLe) k separators) years),
      0 < x.length := by
    by_cases hy : years = []
    · rw [if_pos hy]
      exact hcomb
    · rw [if_neg hy]
      exact append_years_pos_length _ _ hcomb
  cases include_suffixes with
  | false =>
    rw [if_neg (by simp)] at hs
    exact hwy s hs
  | true =>
    rw [if_pos rfl] at hs
    rw [add_suffixes_eq_append_years] at hs
    exact append_years_pos_length _ _ hwy s hs

lemma final_set_singleton_eval :
    final_set ["a"] [] false false false [""] 1 = {"a"} := by
  have h1 : base_tokens ["a"] = {"a"} := by decide
  have h2 : expanded_tokens {"a"} false false = {"a"} := by decide
  have h3 : Finset.sort strLe ({"a"} : Finset String) = ["a"] :=
    Finset.sort_singleton strLe "a"
  have h4 : combine_tokens ["a"] 1 [""] = {"a"} := by decide
  simp only [final_set, h1, h2, h3, h4]
  simp

lemma generate_wordlist_singleton_eval :
    generate_wordlist ["a"] [] false false false [""] 1 0 = ["a"] := by
  simp only [generate_wordlist, final_set_singleton_eval,
    Finset.sort_singleton keyLe "a"]
  rw [if_neg (by omega)]

/-- Claim C10: every string in the pipeline's final output is non-empty
(empty tokens are filtered before combination, joins keep at least one
non-empty token, and appending years or suffixes never shortens a
string). -/
theorem generate_wordlist_nonempty (raw_inputs years : List String)
    (include_leet include_case include_suffixes : Bool)
    (separators : List String) (max_tokens_per_combo max_words : Int) :
    ∀ s ∈ generate_wordlist raw_inputs years include_leet include_case include_suffixes
      separators max_tokens_per_combo max_words, s ≠ "" := by
  intro s hs
  have hsF : s ∈ final_set raw_inputs years include_leet include_case include_suffixes
      separators max_tokens_per_combo := by
    simp only [generate_wordlist] at hs
    by_cases hw : 0 < max_words
    · rw [if_pos hw] at hs
      exact (Finset.mem_sort keyLe).mp (List.mem_of_mem_take hs)
    · rw [if_neg hw] at hs
      exact (Finset.mem_sort keyLe).mp hs
  exact string_ne_empty_of_length_pos
    (final_set_pos_length raw_inputs years include_leet include_case include_suffixes
      separators max_tokens_per_combo s hsF)

/-- Claim C10 witness at the configuration with single raw input `"a"`. -/
theorem generate_wordlist_nonempty_witness :
    "a" ∈ generate_wordlist ["a"] [] false false false [""] 1 0 ∧ "a" ≠ "" :=
  ⟨by rw [generate_wordlist_singleton_eval]; exact List.mem_singleton.mpr rfl,
   generate_wordlist_nonempty ["a"] [] false false false [""] 1 0 "a"
     (by rw [generate_wordlist_singleton_eval]; exact List.mem_singleton.mpr rfl)⟩

/-- Claim C2: with `max-words = N > 0` the pipeline's output has length
`min N (number of final candidates)`, is sorted ascending by
length-then-lexicographic order, is duplicate-free, draws all its entries
from the final candidate set, and every candidate left out is at least as
large (in that order) as every entry that was kept — i.e. the output is
exactly the `N` smallest candidates, listed in order. -/
theorem generate_wordlist_truncation (raw_inputs years : List String)
    (include_leet include_case include_suffixes : Bool)
    (separators : List String) (k N : Int) (hN : 0 < N) :
    (generate_wordlist raw_inputs years include_leet include_case include_suffixes
        separators k N).length
      = min N.toNat (final_set raw_inputs years include_leet include_case
          include_suffixes separators k).card ∧
    List.Sorted keyLe (generate_wordlist raw_inputs years include_leet include_case
      include_suffixes separators k N) ∧
    (generate_wordlist raw_inputs years include_leet include_case include_suffixes
      separators k N).Nodup ∧
    (∀ x ∈ generate_wordlist raw_inputs years include_leet include_case
        include_suffixes separators k N,
      x ∈ final_set raw_inputs years include_leet include_case include_suffixes
        separators k) ∧
    (∀ x ∈ final_set raw_inputs years include_leet include_case include_suffixes
        separators k,
      x ∉ generate_wordlist raw_inputs years include_leet include_case
        include_suffixes separators k N →
      ∀ y ∈ generate_wordlist raw_inputs years include_leet include_case
        include_suffixes separators k N, keyLe y x) := by
  set F := final_set raw_inputs years include_leet include_case include_suffixes
    separators k with hF
  set L := generate_wordlist raw_inputs years include_leet include_case
    include_suffixes separators k N with hLdef
  have hL : L = (Finset.sort keyLe F).take N.toNat := by
    rw [hLdef, hF]
    simp only [generate_wordlist]
    rw [if_pos hN]
  refine ⟨?_, ?_, ?_, ?_, ?_⟩
  · rw [hL, List.length_take, Finset.length_sort]
  · rw [hL]
    exact List.Pairwise.sublist (List.take_sublist _ _) (Finset.sort_sorted keyLe F)
  · rw [hL]
    exact List.Nodup.sublist (List.take_sublist _ _) (Finset.sort_nodup keyLe F)
  · intro x hx
    rw [hL] at hx
    exact (Finset.mem_sort keyLe).mp (List.mem_of_mem_take hx)
  · intro x hxF hxL y hyL
    have hxs : x ∈ Finset.sort keyLe F := (Finset.mem_sort keyLe).mpr hxF
    have hxd : x ∈ (Finset.sort keyLe F).drop N.toNat := by
      rcases List.mem_append.mp
          ((List.take_append_drop N.toNat (Finset.sort keyLe F)).symm ▸ hxs)
        with hx1 | hx2
      · exact absurd (hL ▸ hx1) hxL
      · exact hx2
    rw [hL] at hyL
    exact (Finset.sort_sorted keyLe F).rel_of_mem_take_of_mem_drop hyL hxd

/-- Claim C2 witness at the single-token configuration with `N = 1`. -/
theorem generate_wordlist_truncation_witness :
    (0 : Int) < 1 ∧
    ((generate_wordlist ["a"] [] false false false [""] 1 1).length
        = min (1 : Int).toNat (final_set ["a"] [] false false false [""] 1).card ∧
      List.Sorted keyLe (generate_wordlist ["a"] [] false false false [""] 1 1) ∧
      (generate_wordlist ["a"] [] false false false [""] 1 1).Nodup ∧
      (∀ x ∈ generate_wordlist ["a"] [] false false false [""] 1 1,
        x ∈ final_set ["a"] [] false false false [""] 1) ∧
      (∀ x ∈ final_set ["a"] [] false false false [""] 1,
        x ∉ generate_wordlist ["a"] [] false false false [""] 1 1 →
        ∀ y ∈ generate_wordlist ["a"] [] false false false [""] 1 1, keyLe y x)) :=
  ⟨by decide, generate_wordlist_truncation ["a"] [] false false false [""] 1 1 (by decide)⟩
